import Mathlib

/-!
Verification of the `outpost_config` crate: the `InMemoryProvider` key-value
configuration store (`get` / `has` / `put` / `delete` / `list`) and its file
persistence (`load` / `save` with the temporary-file-then-rename protocol).

The store (`HashMap<String, String>` in the source) is modelled as an
association list with unique keys; the serde_json codec boundary is modelled
abstractly (`Codec` for per-value encode/decode, plus bulk encode/decode
functions for the whole mapping), since the spec treats serialization as an
external capability. The filesystem is modelled as a mapping from path to
file content, with fault-injection flags for each filesystem call `save`
performs. Locking is not modelled: every operation is atomic with respect to
the store, matching the mutual exclusion the `RwLock` provides.
-/

namespace OutpostConfig

/-- Error taxonomy of the crate (`ConfigError` in `lib.rs`): `NotFound` and
`Other(cause)`; the boxed underlying cause is modelled as a `String`. -/
inductive ConfigError where
  | NotFound : ConfigError
  | Other : String → ConfigError
deriving DecidableEq, Repr

/-- Association-list lookup: value of the first entry with the given key,
modelling `HashMap::get`. -/
def alLookup {α : Type} (l : List (String × α)) (k : String) : Option α :=
  (l.find? (fun p => p.1 == k)).map Prod.snd

/-- Association-list insert, modelling `HashMap::insert`: the new entry
replaces any existing entry with the same key. -/
def alInsert {α : Type} (l : List (String × α)) (k : String) (v : α) :
    List (String × α) :=
  (k, v) :: l.filter (fun p => p.1 != k)

/-- Association-list removal, modelling `HashMap::remove`. -/
def alRemove {α : Type} (l : List (String × α)) (k : String) :
    List (String × α) :=
  l.filter (fun p => p.1 != k)

/-- The store of `InMemoryProvider`: a mapping from key to encoded text
(`HashMap<String, String>` in the source). -/
abbrev Store := List (String × String)

/-- The external serde codec boundary for one value type `T`:
`serde_json::to_string` and `serde_json::from_str`, each fallible. -/
structure Codec (T : Type) where
  encode : T → Except String String
  decode : String → Except String T

/-- `InMemoryProvider::get`: look the key up; absent keys give `NotFound`;
a present entry is decoded, decode failure giving `Other`. -/
def getOp {T : Type} (c : Codec T) (s : Store) (k : String) :
    Except ConfigError T :=
  match alLookup s k with
  | none => .error .NotFound
  | some raw =>
    match c.decode raw with
    | .error e => .error (.Other e)
    | .ok v => .ok v

/-- `InMemoryProvider::has`: `contains_key` under the read lock. -/
def hasOp (s : Store) (k : String) : Except ConfigError Bool :=
  .ok (alLookup s k).isSome

/-- `InMemoryProvider::put`: encode the value first; encode failure gives
`Other` and leaves the store alone; otherwise insert the encoded text. -/
def putOp {T : Type} (c : Codec T) (s : Store) (k : String) (v : T) :
    Except ConfigError Unit × Store :=
  match c.encode v with
  | .error e => (.error (.Other e), s)
  | .ok raw => (.ok (), alInsert s k raw)

/-- `InMemoryProvider::delete`: remove the key (a no-op when absent),
always succeeding. -/
def deleteOp (s : Store) (k : String) : Except ConfigError Unit × Store :=
  (.ok (), alRemove s k)

/-- `InMemoryProvider::list`: the keys of the mapping. -/
def listOp (s : Store) : Except ConfigError (List String) :=
  .ok (s.map Prod.fst)

/-- The merge loop of `load`: `for (k, v) in values { store.insert(k, v) }`. -/
def mergeStore (s : Store) (entries : List (String × String)) : Store :=
  entries.foldl (fun acc p => alInsert acc p.1 p.2) s

/-- A filesystem snapshot: a mapping from path to file content. The content
type `γ` is abstract because the on-disk text is produced by the external
codec. -/
structure FileSystem (γ : Type) where
  files : List (String × γ)

/-- Read a file's content (`File::open` + read); `none` when the file cannot
be opened. -/
def fsRead {γ : Type} (fs : FileSystem γ) (p : String) : Option γ :=
  alLookup fs.files p

/-- Create/overwrite a file with the given content. -/
def fsWrite {γ : Type} (fs : FileSystem γ) (p : String) (c : γ) :
    FileSystem γ :=
  ⟨alInsert fs.files p c⟩

/-- Remove a file. -/
def fsErase {γ : Type} (fs : FileSystem γ) (p : String) : FileSystem γ :=
  ⟨alRemove fs.files p⟩

/-- `InMemoryProvider::load`: open the file at `path`, decode its whole
content as a key-to-text mapping (failure in either step gives `Other` and
leaves the store untouched), then merge every decoded pair into the store. -/
def loadOp {γ : Type} (decodeAll : γ → Except String Store)
    (s : Store) (fs : FileSystem γ) (path : String) :
    Except ConfigError Unit × Store :=
  match fsRead fs path with
  | none => (.error (.Other "File open failed"), s)
  | some content =>
    match decodeAll content with
    | .error e => (.error (.Other e), s)
    | .ok entries => (.ok (), mergeStore s entries)

/-- Split a character list at the LAST occurrence of `c`:
`breakAtLast c l = some (before, after)` with `l = before ++ c :: after`,
`none` when `c` does not occur. -/
def breakAtLast (c : Char) : List Char → Option (List Char × List Char)
  | [] => none
  | x :: xs =>
    match breakAtLast c xs with
    | some (b, a) => some (x :: b, a)
    | none => if x = c then some ([], xs) else none

/-- Model of Rust `PathBuf::set_extension(ext)` as used by `save` to build
the temporary path: the extension of the final path component (the portion
after its last dot, where a leading dot does not start an extension) is
REPLACED by `ext`, or `ext` is appended when there is none. A path without a
file name (empty, `.` or `..` final component) is left unchanged, as Rust
then returns `false` without modifying the path — `save` discards that
boolean. -/
def setExtension (p : String) (ext : String) : String :=
  let cs := p.data
  let dirName : List Char × List Char :=
    match breakAtLast '/' cs with
    | some (d, n) => (d ++ ['/'], n)
    | none => ([], cs)
  let dir := dirName.1
  let name := dirName.2
  if name = [] ∨ name = ['.'] ∨ name = ['.', '.'] then p
  else
    let stem :=
      match name with
      | [] => []
      | h :: rest =>
        match breakAtLast '.' rest with
        | some (b, _) => h :: b
        | none => name
    String.mk (dir ++ stem ++ '.' :: ext.data)

/-- Fault injection for the filesystem calls `save` performs, in program
order: `create_dir_all`, `File::create` of the temporary file, the
serialize-and-write into it (`writeFail = some leftover` means the write
failed after leaving `leftover` in the temporary file), and the final
`rename`. -/
structure SaveFaults (γ : Type) where
  mkdirFail : Bool
  createFail : Bool
  writeFail : Option γ
  renameFail : Bool

/-- The fault-free schedule: every filesystem call succeeds. -/
def noFaults {γ : Type} : SaveFaults γ :=
  ⟨false, false, none, false⟩

/-- `InMemoryProvider::save`: ensure the parent directory exists, create the
temporary file at `set_extension(path, "tmp")` — `File::create` truncates
whatever was at that path to the empty content `blank` — serialize the whole
store into it (`encodeAll`, the bulk codec), and finally rename the
temporary file onto `path`. Each filesystem failure aborts with `Other`,
leaving the filesystem as the completed calls left it. -/
def saveOp {γ : Type} (encodeAll : Store → γ) (blank : γ)
    (f : SaveFaults γ) (s : Store) (fs : FileSystem γ) (path : String) :
    Except ConfigError Unit × FileSystem γ :=
  if f.mkdirFail then (.error (.Other "create_dir_all failed"), fs)
  else
    let tmp := setExtension path "tmp"
    if f.createFail then (.error (.Other "File create failed"), fs)
    else
      let fs1 := fsWrite fs tmp blank
      match f.writeFail with
      | some leftover => (.error (.Other "write failed"), fsWrite fs1 tmp leftover)
      | none =>
        let content := encodeAll s
        let fs2 := fsWrite fs1 tmp content
        if f.renameFail then (.error (.Other "rename failed"), fs2)
        else (.ok (), fsWrite (fsErase fs2 tmp) path content)

/-- One store mutation, abstracting the provider operations that can change
the mapping. `putO` carries the codec's encode result for the value; `loadO`
carries the bulk-decode result of the file read by `load` (an already-open,
decodable file yields `.ok entries`). -/
inductive StoreOp where
  | putO : String → Except String String → StoreOp
  | delO : String → StoreOp
  | loadO : Except String Store → StoreOp

/-- Effect of one `StoreOp` on the store, exactly as the source applies it:
a failed encode or decode leaves the store unchanged. -/
def applyStoreOp (s : Store) : StoreOp → Store
  | .putO k enc =>
    match enc with
    | .error _ => s
    | .ok raw => alInsert s k raw
  | .delO k => alRemove s k
  | .loadO dec =>
    match dec with
    | .error _ => s
    | .ok entries => mergeStore s entries

/-- The store after a sequence of mutations starting from the empty store
(`InMemoryProvider::new`). -/
def runOps (ops : List StoreOp) : Store :=
  ops.foldl applyStoreOp []

/-- Whether a mutation can introduce the key `k` into the store: a
successful `put` of `k`, or a `load` whose decoded mapping contains `k`. -/
def introduces (k : String) : StoreOp → Bool
  | .putO k' enc =>
    k' == k && (match enc with | .ok _ => true | .error _ => false)
  | .delO _ => false
  | .loadO dec =>
    match dec with
    | .error _ => false
    | .ok entries => entries.any (fun p => p.1 == k)

instance {ε α : Type} [DecidableEq ε] [DecidableEq α] :
    DecidableEq (Except ε α) := fun a b =>
  match a, b with
  | .ok x, .ok y =>
    if h : x = y then isTrue (by rw [h]) else
      isFalse (fun hc => h (Except.ok.inj hc))
  | .error x, .error y =>
    if h : x = y then isTrue (by rw [h]) else
      isFalse (fun hc => h (Except.error.inj hc))
  | .ok _, .error _ => isFalse (fun hc => Except.noConfusion hc)
  | .error _, .ok _ => isFalse (fun hc => Except.noConfusion hc)

/-- The first of two optional values, modelling "the file's entry wins over
the store's entry" after a merge. -/
def firstSome {α : Type} (a b : Option α) : Option α :=
  match a with
  | some v => some v
  | none => b

/-- The keys of an association list are pairwise distinct — the invariant a
`HashMap` maintains. -/
abbrev keysNodup {α : Type} (l : List (String × α)) : Prop :=
  (l.map Prod.fst).Nodup

/-- The identity codec on `String`: an example of a serde round trip, used
to instantiate codec hypotheses on concrete inputs. -/
def idCodec : Codec String :=
  ⟨fun s => .ok s, fun s => .ok s⟩

/-- A codec whose encode always fails, modelling a serde_json serialization
failure. -/
def failCodec : Codec Nat :=
  ⟨fun _ => .error "encode failed", fun _ => .error "decode failed"⟩

theorem alLookup_cons {α : Type} (k₀ : String) (v₀ : α)
    (t : List (String × α)) (k : String) :
    alLookup ((k₀, v₀) :: t) k = if k₀ = k then some v₀ else alLookup t k := by
  by_cases h : k₀ = k <;> simp [alLookup, List.find?_cons, h]

theorem find?_filter_ne {α : Type} (l : List (String × α)) (k k' : String)
    (h : k' ≠ k) :
    (l.filter (fun p => p.1 != k)).find? (fun p => p.1 == k') =
      l.find? (fun p => p.1 == k') := by
  induction l with
  | nil => rfl
  | cons a t ih =>
    by_cases hk : a.1 = k
    · have hne : (k == k') = false := by
        rw [beq_eq_false_iff_ne]
        exact fun hc => h hc.symm
      simp [List.filter_cons, hk, List.find?_cons, hne, ih]
    · by_cases hk' : a.1 = k'
      · have hcondT : (k' != k) = true := by
          rw [bne_iff_ne]
          exact h
        simp [List.filter_cons, List.find?_cons, hk', hcondT]
      · have hcondT : (a.1 != k) = true := by
          rw [bne_iff_ne]
          exact hk
        have hneF : (a.1 == k') = false := by
          rw [beq_eq_false_iff_ne]
          exact hk'
        simp [List.filter_cons, List.find?_cons, hcondT, hneF, ih]

theorem alLookup_filter_ne {α : Type} (l : List (String × α))
    (k k' : String) (h : k' ≠ k) :
    alLookup (l.filter (fun p => p.1 != k)) k' = alLookup l k' := by
  unfold alLookup
  rw [find?_filter_ne l k k' h]

theorem alLookup_alInsert {α : Type} (l : List (String × α)) (k : String)
    (v : α) (k' : String) :
    alLookup (alInsert l k v) k' = if k = k' then some v else alLookup l k' := by
  by_cases h : k = k'
  · simp [alInsert, alLookup_cons, h]
  · simp [alInsert, alLookup_cons, h]
    exact alLookup_filter_ne l k k' (fun hc => h hc.symm)

theorem alLookup_alRemove {α : Type} (l : List (String × α))
    (k k' : String) :
    alLookup (alRemove l k) k' = if k = k' then none else alLookup l k' := by
  by_cases h : k = k'
  · subst h
    simp only [alRemove, alLookup, if_pos rfl]
    rw [List.find?_eq_none.mpr]
    · rfl
    · intro p hp
      have := (List.mem_filter.mp hp).2
      rw [bne_iff_ne] at this
      simp [this]
  · rw [if_neg h]
    exact alLookup_filter_ne l k k' (fun hc => h hc.symm)

theorem mem_keys_iff {α : Type} (l : List (String × α)) (k : String) :
    k ∈ l.map Prod.fst ↔ (alLookup l k).isSome := by
  induction l with
  | nil => simp [alLookup]
  | cons a t ih =>
    obtain ⟨k₀, v₀⟩ := a
    by_cases h : k₀ = k
    · simp [alLookup_cons, h]
    · simp only [List.map_cons, List.mem_cons, alLookup_cons, if_neg h]
      rw [← ih]
      constructor
      · rintro (hc | hc)
        · exact absurd hc.symm h
        · exact hc
      · exact Or.inr

theorem keysNodup_nil {α : Type} : keysNodup ([] : List (String × α)) :=
  List.nodup_nil

theorem keysNodup_filter {α : Type} (l : List (String × α))
    (p : String × α → Bool) (h : keysNodup l) :
    keysNodup (l.filter p) :=
  List.Nodup.sublist ((List.filter_sublist l).map Prod.fst) h

theorem keysNodup_alInsert {α : Type} (l : List (String × α)) (k : String)
    (v : α) (h : keysNodup l) : keysNodup (alInsert l k v) := by
  refine List.nodup_cons.mpr ⟨?_, keysNodup_filter l _ h⟩
  intro hmem
  obtain ⟨p, hp, hpk⟩ := List.mem_map.mp hmem
  have := (List.mem_filter.mp hp).2
  rw [bne_iff_ne] at this
  exact this hpk

theorem keysNodup_alRemove {α : Type} (l : List (String × α)) (k : String)
    (h : keysNodup l) : keysNodup (alRemove l k) :=
  keysNodup_filter l _ h

theorem mergeStore_cons (s : Store) (a : String × String)
    (t : List (String × String)) :
    mergeStore s (a :: t) = mergeStore (alInsert s a.1 a.2) t := rfl

theorem keysNodup_mergeStore (entries : List (String × String)) (s : Store)
    (h : keysNodup s) : keysNodup (mergeStore s entries) := by
  induction entries generalizing s with
  | nil => exact h
  | cons a t ih =>
    rw [mergeStore_cons]
    exact ih _ (keysNodup_alInsert s a.1 a.2 h)

theorem alLookup_mergeStore (entries : List (String × String)) (s : Store)
    (k : String) (h : keysNodup entries) :
    alLookup (mergeStore s entries) k =
      firstSome (alLookup entries k) (alLookup s k) := by
  induction entries generalizing s with
  | nil => simp [mergeStore, alLookup, firstSome]
  | cons a t ih =>
    obtain ⟨k₀, v₀⟩ := a
    have hnd : keysNodup t := (List.nodup_cons.mp h).2
    have hk₀ : k₀ ∉ t.map Prod.fst := (List.nodup_cons.mp h).1
    rw [mergeStore_cons, ih _ hnd]
    by_cases hk : k₀ = k
    · subst hk
      have ht : alLookup t k₀ = none := by
        cases hlk : alLookup t k₀ with
        | none => rfl
        | some v =>
          exact absurd ((mem_keys_iff t k₀).mpr (by rw [hlk]; rfl)) hk₀
      rw [ht, alLookup_cons, if_pos rfl, alLookup_alInsert, if_pos rfl]
      rfl
    · rw [alLookup_cons, if_neg hk, alLookup_alInsert, if_neg hk]

theorem alLookup_mergeStore_notMem (entries : List (String × String))
    (s : Store) (k : String) (h : ∀ p ∈ entries, p.1 ≠ k) :
    alLookup (mergeStore s entries) k = alLookup s k := by
  induction entries generalizing s with
  | nil => rfl
  | cons a t ih =>
    rw [mergeStore_cons, ih _ (fun p hp => h p (List.mem_cons_of_mem a hp))]
    rw [alLookup_alInsert, if_neg (h a (List.mem_cons_self a t))]

theorem foldl_applyStoreOp_keysNodup (ops : List StoreOp) (s : Store)
    (h : keysNodup s) : keysNodup (ops.foldl applyStoreOp s) := by
  induction ops generalizing s with
  | nil => exact h
  | cons op t ih =>
    rw [List.foldl_cons]
    apply ih
    cases op with
    | putO k enc =>
      cases enc with
      | error e => exact h
      | ok raw => exact keysNodup_alInsert s k raw h
    | delO k => exact keysNodup_alRemove s k h
    | loadO dec =>
      cases dec with
      | error e => exact h
      | ok entries => exact keysNodup_mergeStore entries s h

theorem runOps_keysNodup (ops : List StoreOp) : keysNodup (runOps ops) :=
  foldl_applyStoreOp_keysNodup ops [] keysNodup_nil

theorem foldl_no_introduce (ops : List StoreOp) (k : String) (s : Store)
    (hs : alLookup s k = none) (h : ∀ op ∈ ops, introduces k op = false) :
    alLookup (ops.foldl applyStoreOp s) k = none := by
  induction ops generalizing s with
  | nil => exact hs
  | cons op t ih =>
    rw [List.foldl_cons]
    have hop := h op (List.mem_cons_self op t)
    refine ih _ ?_ (fun o ho => h o (List.mem_cons_of_mem op ho))
    cases op with
    | putO k' enc =>
      cases enc with
      | error e => exact hs
      | ok raw =>
        have hk : k' ≠ k := by
          simp [introduces] at hop
          exact hop
        show alLookup (alInsert s k' raw) k = none
        rw [alLookup_alInsert, if_neg hk]
        exact hs
    | delO k' =>
      show alLookup (alRemove s k') k = none
      rw [alLookup_alRemove]
      by_cases hc : k' = k
      · rw [if_pos hc]
      · rw [if_neg hc]
        exact hs
    | loadO dec =>
      cases dec with
      | error e => exact hs
      | ok entries =>
        have hne : ∀ p ∈ entries, p.1 ≠ k := by
          intro p hp
          simp [introduces] at hop
          exact hop p.1 p.2 hp
        show alLookup (mergeStore s entries) k = none
        rw [alLookup_mergeStore_notMem entries s k hne]
        exact hs

theorem getOp_eq_notFound {T : Type} (c : Codec T) (s : Store) (k : String)
    (h : alLookup s k = none) : getOp c s k = .error .NotFound := by
  unfold getOp
  rw [h]

theorem getOp_eq_decode {T : Type} (c : Codec T) (s : Store)
    (k raw : String) (h : alLookup s k = some raw) :
    getOp c s k = (match c.decode raw with
      | .error e => Except.error (ConfigError.Other e)
      | .ok v => Except.ok v) := by
  unfold getOp
  rw [h]

/-- C3: for every value type and codec that round-trips on the value `v`, a
successful `put(k, v)` followed immediately by `get(k)` succeeds and returns
a value equal to `v`. -/
theorem put_get_roundtrip {T : Type} (c : Codec T) (s : Store) (k : String)
    (v : T) (raw : String) (henc : c.encode v = .ok raw)
    (hdec : c.decode raw = .ok v) :
    (putOp c s k v).1 = .ok () ∧ getOp c (putOp c s k v).2 k = .ok v := by
  have hp : putOp c s k v = (.ok (), alInsert s k raw) := by
    unfold putOp
    rw [henc]
  have h2 : (putOp c s k v).2 = alInsert s k raw := by
    rw [hp]
  refine ⟨by rw [hp], ?_⟩
  rw [h2, getOp_eq_decode c (alInsert s k raw) k raw
    (by rw [alLookup_alInsert, if_pos rfl]), hdec]

theorem put_get_roundtrip_witness :
    (putOp idCodec [] "a" "hello").1 = .ok () ∧
      getOp idCodec (putOp idCodec [] "a" "hello").2 "a" = .ok "hello" :=
  put_get_roundtrip idCodec [] "a" "hello" "hello" rfl rfl

/-- C7: when encoding the value fails, `put` returns `Other` wrapping the
encode error and the store is exactly the one from before the call. -/
theorem put_encode_failure_no_mutation {T : Type} (c : Codec T) (s : Store)
    (k : String) (v : T) (e : String) (h : c.encode v = .error e) :
    putOp c s k v = (.error (.Other e), s) := by
  unfold putOp
  rw [h]

theorem put_encode_failure_witness :
    putOp failCodec [("a", "1")] "b" 7 =
      (.error (.Other "encode failed"), [("a", "1")]) :=
  put_encode_failure_no_mutation failCodec [("a", "1")] "b" 7 "encode failed"
    rfl

/-- C9: `has`, `delete` and `list` always return success — their
`ConfigError` branch is unreachable for every store and key. -/
theorem has_delete_list_total (s : Store) (k : String) :
    (∃ b, hasOp s k = .ok b) ∧ (∃ s2, deleteOp s k = (.ok (), s2)) ∧
      ∃ l, listOp s = .ok l :=
  ⟨⟨(alLookup s k).isSome, rfl⟩, ⟨alRemove s k, rfl⟩, ⟨s.map Prod.fst, rfl⟩⟩

/-- C10: the empty-string key is not special: `put("", v)` succeeds and the
entry is visible through `get`, `has` and `list` like any other key, for
every codec that round-trips on `v`. -/
theorem empty_key_unrestricted {T : Type} (c : Codec T) (s : Store) (v : T)
    (raw : String) (henc : c.encode v = .ok raw)
    (hdec : c.decode raw = .ok v) :
    (putOp c s "" v).1 = .ok () ∧
      getOp c (putOp c s "" v).2 "" = .ok v ∧
      hasOp (putOp c s "" v).2 "" = .ok true ∧
      ∃ l, listOp (putOp c s "" v).2 = .ok l ∧ "" ∈ l := by
  have hp : putOp c s "" v = (.ok (), alInsert s "" raw) := by
    unfold putOp
    rw [henc]
  have h2 : (putOp c s "" v).2 = alInsert s "" raw := by
    rw [hp]
  rw [h2]
  refine ⟨by rw [hp], ?_, ?_, ?_⟩
  · rw [getOp_eq_decode c (alInsert s "" raw) "" raw
      (by rw [alLookup_alInsert, if_pos rfl]), hdec]
  · unfold hasOp
    rw [alLookup_alInsert, if_pos rfl]
    rfl
  · exact ⟨(alInsert s "" raw).map Prod.fst, rfl, by simp [alInsert]⟩

theorem empty_key_witness :
    (putOp idCodec [("x", "1")] "" "vv").1 = .ok () ∧
      getOp idCodec (putOp idCodec [("x", "1")] "" "vv").2 "" = .ok "vv" ∧
      hasOp (putOp idCodec [("x", "1")] "" "vv").2 "" = .ok true ∧
      ∃ l, listOp (putOp idCodec [("x", "1")] "" "vv").2 = .ok l ∧ "" ∈ l :=
  empty_key_unrestricted idCodec [("x", "1")] "vv" "vv" rfl rfl

/-- C4: when `load` fails — the file cannot be opened, or its payload does
not decode to a key-to-text mapping — it reports `Other` and the store is
exactly the one from before the call: decoding completes in full before any
entry is applied. -/
theorem load_failure_no_mutation {γ : Type}
    (decodeAll : γ → Except String Store) (s : Store) (fs : FileSystem γ)
    (path : String) (e : ConfigError)
    (h : (loadOp decodeAll s fs path).1 = .error e) :
    (loadOp decodeAll s fs path).2 = s ∧ ∃ msg, e = .Other msg := by
  cases hr : fsRead fs path with
  | none =>
    have hl : loadOp decodeAll s fs path =
        (.error (.Other "File open failed"), s) := by
      unfold loadOp
      simp only [hr]
    rw [hl] at h
    exact ⟨by rw [hl], "File open failed", (Except.error.inj h).symm⟩
  | some content =>
    cases hd : decodeAll content with
    | error msg =>
      have hl : loadOp decodeAll s fs path = (.error (.Other msg), s) := by
        unfold loadOp
        simp only [hr, hd]
      rw [hl] at h
      exact ⟨by rw [hl], msg, (Except.error.inj h).symm⟩
    | ok entries =>
      have hl : loadOp decodeAll s fs path =
          (.ok (), mergeStore s entries) := by
        unfold loadOp
        simp only [hr, hd]
      rw [hl] at h
      exact absurd h (by simp)

theorem load_failure_witness :
    (loadOp (fun _ : String => .error "bad payload") [("a", "1")]
      ⟨[]⟩ "cfg.json").2 = [("a", "1")] ∧
      ∃ msg, (ConfigError.Other "File open failed") = .Other msg :=
  load_failure_no_mutation _ _ _ _ _ rfl

/-- C5: a successful `load` merges rather than replaces: for every key the
resulting entry is the file's entry when the key occurs in the decoded
mapping and the pre-existing entry otherwise. -/
theorem load_merges {γ : Type} (decodeAll : γ → Except String Store)
    (s : Store) (fs : FileSystem γ) (path : String) (content : γ)
    (entries : Store) (hread : fsRead fs path = some content)
    (hdec : decodeAll content = .ok entries) (hnd : keysNodup entries) :
    (loadOp decodeAll s fs path).1 = .ok () ∧
      ∀ k, alLookup (loadOp decodeAll s fs path).2 k =
        firstSome (alLookup entries k) (alLookup s k) := by
  have hl : loadOp decodeAll s fs path = (.ok (), mergeStore s entries) := by
    unfold loadOp
    simp only [hread, hdec]
  rw [hl]
  exact ⟨rfl, fun k => alLookup_mergeStore entries s k hnd⟩

theorem load_merges_witness :
    (loadOp (fun c : Store => .ok c) [("a", "1")]
      ⟨[("cfg.json", [("b", "2")])]⟩ "cfg.json").1 = .ok () ∧
      ∀ k, alLookup (loadOp (fun c : Store => .ok c) [("a", "1")]
        ⟨[("cfg.json", [("b", "2")])]⟩ "cfg.json").2 k =
        firstSome (alLookup [("b", "2")] k) (alLookup [("a", "1")] k) :=
  load_merges _ _ _ _ _ _ rfl rfl (by decide)

/-- C6: after every finite sequence of put/delete/load operations starting
from the empty store, `list` returns exactly the set of keys for which
`has` is true: same elements, no duplicates. -/
theorem list_reflects_has (ops : List StoreOp) :
    ∃ l, listOp (runOps ops) = .ok l ∧ l.Nodup ∧
      ∀ k, k ∈ l ↔ hasOp (runOps ops) k = .ok true := by
  refine ⟨(runOps ops).map Prod.fst, rfl, runOps_keysNodup ops, ?_⟩
  intro k
  rw [mem_keys_iff]
  unfold hasOp
  constructor
  · intro hs
    rw [hs]
  · intro hs
    rw [Except.ok.inj hs]

/-- C8: a key that was never successfully introduced — or was deleted and
never reintroduced by a later put or load — has `has = false` and
`get = NotFound`; moreover `get` returns `NotFound` only when the key is
absent, and returns a value only when the stored text decodes to it. -/
theorem absent_key_not_found {T : Type} (c : Codec T)
    (ops1 ops2 : List StoreOp) (k : String)
    (h : ∀ op ∈ ops2, introduces k op = false) :
    hasOp (ops2.foldl applyStoreOp (deleteOp (runOps ops1) k).2) k =
      .ok false ∧
      getOp c (ops2.foldl applyStoreOp (deleteOp (runOps ops1) k).2) k =
        .error .NotFound ∧
      (∀ s : Store, getOp c s k = .error .NotFound → alLookup s k = none) ∧
      ∀ (s : Store) (v : T), getOp c s k = .ok v →
        ∃ raw, alLookup s k = some raw ∧ c.decode raw = .ok v := by
  have hnone :
      alLookup (ops2.foldl applyStoreOp (deleteOp (runOps ops1) k).2) k =
        none := by
    apply foldl_no_introduce ops2 k _ _ h
    show alLookup (alRemove (runOps ops1) k) k = none
    rw [alLookup_alRemove, if_pos rfl]
  refine ⟨?_, getOp_eq_notFound c _ k hnone, ?_, ?_⟩
  · unfold hasOp
    rw [hnone]
    rfl
  · intro s hg
    cases hl : alLookup s k with
    | none => rfl
    | some raw =>
      rw [getOp_eq_decode c s k raw hl] at hg
      cases hd : c.decode raw with
      | error e =>
        rw [hd] at hg
        exact absurd (Except.error.inj hg) (by simp)
      | ok w =>
        rw [hd] at hg
        exact absurd hg (by simp)
  · intro s v hg
    cases hl : alLookup s k with
    | none =>
      rw [getOp_eq_notFound c s k hl] at hg
      exact absurd hg (by simp)
    | some raw =>
      rw [getOp_eq_decode c s k raw hl] at hg
      cases hd : c.decode raw with
      | error e =>
        rw [hd] at hg
        exact absurd hg (by simp)
      | ok w =>
        rw [hd] at hg
        exact ⟨raw, rfl, by rw [hd, Except.ok.inj hg]⟩

theorem absent_key_witness :
    hasOp ([StoreOp.putO "b" (Except.ok "2")].foldl applyStoreOp
        (deleteOp (runOps [StoreOp.putO "a" (Except.ok "1")]) "a").2) "a" =
      .ok false :=
  (absent_key_not_found idCodec [StoreOp.putO "a" (Except.ok "1")]
    [StoreOp.putO "b" (Except.ok "2")] "a" (by decide)).1

/-- C2: with the fault-free filesystem schedule `save(path)` succeeds, and a
fresh provider's `load(path)` rebuilds exactly the saved store whenever the
bulk codec round-trips on the saved mapping: every key reads back to its
saved entry and `list` returns exactly the saved key set. -/
theorem save_load_roundtrip {γ : Type} (encodeAll : Store → γ) (blank : γ)
    (decodeAll : γ → Except String Store) (s entries : Store)
    (fs : FileSystem γ) (path : String)
    (hrt : decodeAll (encodeAll s) = .ok entries)
    (hagree : ∀ k, alLookup entries k = alLookup s k)
    (hnd : keysNodup entries) :
    (saveOp encodeAll blank noFaults s fs path).1 = .ok () ∧
      (loadOp decodeAll [] (saveOp encodeAll blank noFaults s fs path).2
        path).1 = .ok () ∧
      (∀ k, alLookup (loadOp decodeAll []
        (saveOp encodeAll blank noFaults s fs path).2 path).2 k =
        alLookup s k) ∧
      ∃ l, listOp (loadOp decodeAll []
        (saveOp encodeAll blank noFaults s fs path).2 path).2 = .ok l ∧
        ∀ k, k ∈ l ↔ (alLookup s k).isSome := by
  have hread : fsRead (saveOp encodeAll blank noFaults s fs path).2 path =
      some (encodeAll s) := by
    show alLookup (alInsert _ path (encodeAll s)) path = some (encodeAll s)
    rw [alLookup_alInsert, if_pos rfl]
  have hl : loadOp decodeAll []
      (saveOp encodeAll blank noFaults s fs path).2 path =
      (.ok (), mergeStore [] entries) := by
    unfold loadOp
    simp only [hread, hrt]
  have hlk : ∀ k, alLookup (mergeStore [] entries) k = alLookup s k := by
    intro k
    rw [alLookup_mergeStore entries [] k hnd, ← hagree k]
    cases alLookup entries k <;> rfl
  refine ⟨rfl, by rw [hl], ?_, ?_⟩
  · intro k
    rw [hl]
    exact hlk k
  · refine ⟨(mergeStore [] entries).map Prod.fst, by rw [hl]; rfl, ?_⟩
    intro k
    rw [mem_keys_iff, hlk k]

theorem save_load_roundtrip_witness :
    alLookup (loadOp (fun c : Store => Except.ok c) []
      (saveOp (fun st : Store => st) [] noFaults
        [("a", "1"), ("b", "\"x\"")] ⟨[]⟩ "dir/cfg.json").2
      "dir/cfg.json").2 "a" =
      alLookup [("a", "1"), ("b", "\"x\"")] "a" :=
  (save_load_roundtrip (fun st : Store => st) [] (fun c : Store => .ok c)
    [("a", "1"), ("b", "\"x\"")] [("a", "1"), ("b", "\"x\"")] ⟨[]⟩
    "dir/cfg.json" rfl (fun _ => rfl) (by decide)).2.2.1 "a"

/-- When the temporary path differs from the destination, a failing `save`
leaves the destination file untouched: every injected filesystem failure
aborts before the only write to `path`, the final rename. This is the
atomic-replace guarantee — which therefore hinges on the temporary path
being distinct. -/
theorem save_failure_preserves_destination {γ : Type}
    (encodeAll : Store → γ) (blank : γ) (f : SaveFaults γ) (s : Store)
    (fs : FileSystem γ) (path : String) (e : ConfigError)
    (hne : setExtension path "tmp" ≠ path)
    (h : (saveOp encodeAll blank f s fs path).1 = .error e) :
    fsRead (saveOp encodeAll blank f s fs path).2 path = fsRead fs path := by
  obtain ⟨mk, cr, wf, rn⟩ := f
  cases mk with
  | true => rfl
  | false =>
    cases cr with
    | true => rfl
    | false =>
      cases wf with
      | some leftover =>
        show alLookup (alInsert (alInsert fs.files
          (setExtension path "tmp") blank)
          (setExtension path "tmp") leftover) path = alLookup fs.files path
        rw [alLookup_alInsert, if_neg hne, alLookup_alInsert, if_neg hne]
      | none =>
        cases rn with
        | true =>
          show alLookup (alInsert (alInsert fs.files
            (setExtension path "tmp") blank)
            (setExtension path "tmp") (encodeAll s)) path =
            alLookup fs.files path
          rw [alLookup_alInsert, if_neg hne, alLookup_alInsert, if_neg hne]
        | false => exact absurd h (by simp [saveOp])

theorem save_failure_preserves_destination_witness :
    setExtension "dir/cfg.json" "tmp" ≠ "dir/cfg.json" ∧
      fsRead (saveOp (fun _ : Store => "NEW") ""
        ⟨false, false, some "PARTIAL", false⟩ []
        ⟨[("dir/cfg.json", "OLD")]⟩ "dir/cfg.json").2 "dir/cfg.json" =
      fsRead (⟨[("dir/cfg.json", "OLD")]⟩ : FileSystem String)
        "dir/cfg.json" :=
  ⟨by decide, save_failure_preserves_destination (fun _ : Store => "NEW") ""
    ⟨false, false, some "PARTIAL", false⟩ [] ⟨[("dir/cfg.json", "OLD")]⟩
    "dir/cfg.json" (.Other "write failed") (by decide) rfl⟩

/-- C1 fails on the code: `save` derives the temporary path with
`set_extension("tmp")`, which REPLACES the destination's extension instead
of appending one. For a destination that already has the `tmp` extension —
here `config.tmp` holding `OLD` — the "temporary" file IS the destination,
so `File::create` truncates it before anything is written; when the
subsequent serialize-and-write fails, `save` reports `Other` but the
destination now holds the partial write instead of its prior contents, and
the temporary file's name was never distinguishable from the destination. -/
theorem save_tmp_destination_clobbered :
    setExtension "config.tmp" "tmp" = "config.tmp" ∧
      (saveOp (fun _ : Store => "NEW") ""
        ⟨false, false, some "PARTIAL", false⟩ []
        ⟨[("config.tmp", "OLD")]⟩ "config.tmp").1 =
        .error (.Other "write failed") ∧
      fsRead (saveOp (fun _ : Store => "NEW") ""
        ⟨false, false, some "PARTIAL", false⟩ []
        ⟨[("config.tmp", "OLD")]⟩ "config.tmp").2 "config.tmp" =
        some "PARTIAL" ∧
      some "PARTIAL" ≠ some "OLD" := by
  refine ⟨by decide, rfl, by decide, by decide⟩

/-- Sanity checks of the `set_extension` model on representative paths: an
existing extension is replaced, a missing one is appended, and a leading dot
does not start an extension. -/
theorem setExtension_spotChecks :
    setExtension "config.json" "tmp" = "config.tmp" ∧
      setExtension "a/b/config.json" "tmp" = "a/b/config.tmp" ∧
      setExtension "config" "tmp" = "config.tmp" ∧
      setExtension ".hidden" "tmp" = ".hidden.tmp" :=
  ⟨by decide, by decide, by decide, by decide⟩

end OutpostConfig
